import Mathlib

/-!
Shallow embedding of `src/main.py` (a Monte-Carlo next-day price forecaster)
and proofs about it.

Modelling conventions:
* Python/numpy float arithmetic is modelled by exact rational arithmetic (`ℚ`);
  the claims under study are about the arithmetic structure of the pipeline,
  not about floating-point rounding.  Division by zero in `ℚ` is the usual
  Lean junk value `0`; every theorem that depends on a quotient carries the
  positivity hypotheses that make the embedding faithful.
* A pandas series that may contain `NaN` entries is modelled as
  `List (Option ℚ)`, with `none` standing for `NaN`; `dropna` is `filterMap id`.
  Pandas produces `NaN` statistics on an empty series; the embedding's junk
  value `0` in that degenerate case is never relied upon: every theorem about
  the statistics assumes a nonempty return series.
* `np.random.normal mu sigma` draws are modelled in location-scale form
  `mu + sigma * z` applied to a stream `z` of standard-normal draws, which is
  how numpy's generator produces them; the draws themselves are a parameter
  (the distribution of the stream is outside the embedding).
* The quantities that the source passes through `sqrt` (`std_r`, the
  annualized volatility) are embedded over `ℝ` via `Real.sqrt`, on top of the
  rational variance.
-/

namespace BotSpec

/-- Embedding of `data.dropna()` (src/main.py line 120) and
`.dropna()` on the return series (line 123): remove the `NaN` (`none`)
entries of a pandas series. -/
def dropna (xs : List (Option ℚ)) : List ℚ :=
  xs.filterMap id

/-- Embedding of pandas `Series.pct_change()` (src/main.py line 123): the
result has one entry per input entry, the first being `NaN` and entry `t`
(for `t ≥ 1`) being `price_t / price_{t-1} - 1`. -/
def pct_change (data : List ℚ) : List (Option ℚ) :=
  match data with
  | [] => []
  | _ :: _ => none :: List.zipWith (fun prev cur => some (cur / prev - 1)) data data.tail

/-- Embedding of line 123: `returns = data.pct_change().dropna()`. -/
def returnsOf (data : List ℚ) : List ℚ :=
  dropna (pct_change data)

/-- Embedding of `Series.mean()` / `np.mean` (lines 126 and 148):
the arithmetic mean, `sum / length`. -/
def mean (xs : List ℚ) : ℚ :=
  xs.sum / (xs.length : ℚ)

/-- Embedding of the square of `Series.std(ddof=0)` (line 127): the population
variance, with divisor `N` (the length of the list), not `N - 1`. -/
def var_pop (xs : List ℚ) : ℚ :=
  ((xs.map (fun x => (x - mean xs) ^ 2)).sum) / (xs.length : ℚ)

/-- Embedding of `Series.std(ddof=0)` itself (line 127): the square root of
the population variance, over `ℝ`. -/
noncomputable def std_pop (xs : List ℚ) : ℝ :=
  Real.sqrt ((var_pop xs : ℚ) : ℝ)

/-- The values lines 119-128 of src/main.py extract from the cleaned price
series: the return series, its mean (`mean_r`), the square of its population
standard deviation (`var_r`, so that `std_r = Real.sqrt var_r`), and the last
price (`data.iloc[-1]`). -/
structure ExtractedQ where
  returnsList : List ℚ
  mean_r : ℚ
  var_r : ℚ
  last_price : ℚ

/-- Lines 123-128 applied to an already-cleaned (`NaN`-free) price series.
`data.iloc[-1]` raises `IndexError` on an empty series, which is the only
failure of this block; it is modelled by `none`. -/
def extractClean (data : List ℚ) : Option ExtractedQ :=
  match data.getLast? with
  | none => none
  | some lp =>
      some { returnsList := returnsOf data
             mean_r := mean (returnsOf data)
             var_r := var_pop (returnsOf data)
             last_price := lp }

/-- Embedding of lines 119-128 of src/main.py: drop the `NaN` entries of the
fetched close-price series, compute the return series, its mean and population
standard deviation, and the last price. -/
def extract (raw : List (Option ℚ)) : Option ExtractedQ :=
  extractClean (dropna raw)

/-- The sorted sample: `np.percentile` sorts its input internally. -/
def sortQ (xs : List ℚ) : List ℚ :=
  xs.mergeSort (fun a b => decide (a ≤ b))

/-- Linear interpolation of a (sorted) sample `s` at the fractional index `h`:
`s[⌊h⌋] + (h - ⌊h⌋) * (s[⌊h⌋ + 1] - s[⌊h⌋])`, with the upper neighbour
clamped to `s[⌊h⌋]` when `⌊h⌋` is the last index.  This is the interpolation
step of `np.percentile` with its default (`linear`) method. -/
def interpAt (s : List ℚ) (h : ℚ) : ℚ :=
  let lo : ℕ := (⌊h⌋).toNat
  let a : ℚ := s.getD lo 0
  let b : ℚ := s.getD (lo + 1) a
  a + (h - ((⌊h⌋ : ℤ) : ℚ)) * (b - a)

/-- Embedding of `np.percentile(xs, q)` with the default `linear` method
(lines 142-146): sort the sample and linearly interpolate at the virtual
index `q / 100 * (n - 1)`. -/
def npPercentile (q : ℚ) (xs : List ℚ) : ℚ :=
  let s := sortQ xs
  interpAt s (q / 100 * ((s.length : ℚ) - 1))

/-- The spec's percentile, written from the spec's words (for comparison with
the source-embedded `npPercentile`): the value at fractional rank
`q / 100 * (n - 1)` in the sorted sample, the convex combination of the two
adjacent order statistics. -/
def rankInterp (q : ℚ) (s : List ℚ) : ℚ :=
  let h : ℚ := q / 100 * ((s.length : ℚ) - 1)
  let lo : ℕ := (⌊h⌋).toNat
  let hi : ℕ := min (lo + 1) (s.length - 1)
  (1 - (h - ((⌊h⌋ : ℤ) : ℚ))) * s.getD lo 0 + (h - ((⌊h⌋ : ℤ) : ℚ)) * s.getD hi 0

/-- One draw of `np.random.normal mu sigma` in location-scale form:
`mu + sigma * z` for a standard-normal draw `z` (line 132). -/
def drawNormal (mu sigma z : ℚ) : ℚ :=
  mu + sigma * z

/-- Lines 132-139: the drawn returns `np.random.normal(mean_r, std_r, ...)`
mapped to simulated terminal prices `last_price * (1 + r)`.  `DAYS_AHEAD = 1`,
so the `(N_SIMS, 1)` matrix of draws and its column 0 are one list. -/
def simulated_prices (last_price mu sigma : ℚ) (noise : List ℚ) : List ℚ :=
  (noise.map (fun z => drawNormal mu sigma z)).map (fun r => last_price * (1 + r))

/-- The per-instrument simulation output of lines 142-148: the five
interpolated percentiles and the sample mean (`expected_price`). -/
structure SimulationResult where
  p1 : ℚ
  p5 : ℚ
  p50 : ℚ
  p95 : ℚ
  p99 : ℚ
  expected_price : ℚ
deriving DecidableEq

/-- Embedding of the Monte-Carlo step, lines 132-148 of src/main.py, with the
standard-normal stream `noise` as an explicit parameter. -/
def simulate (last_price mu sigma : ℚ) (noise : List ℚ) : SimulationResult :=
  { p1 := npPercentile 1 (simulated_prices last_price mu sigma noise)
    p5 := npPercentile 5 (simulated_prices last_price mu sigma noise)
    p50 := npPercentile 50 (simulated_prices last_price mu sigma noise)
    p95 := npPercentile 95 (simulated_prices last_price mu sigma noise)
    p99 := npPercentile 99 (simulated_prices last_price mu sigma noise)
    expected_price := mean (simulated_prices last_price mu sigma noise) }

/-- Embedding of line 149: `vol_annual = std_r * np.sqrt(252) * 100`. -/
noncomputable def vol_annual (std_r : ℝ) : ℝ :=
  std_r * Real.sqrt 252 * 100

/-- Embedding of the per-ticker loop of lines 92-172: each ticker's whole body
(the external fetch, the guards and the computation) is abstracted as `step`;
a body that raises or `continue`s is an `Except.error`, and every such ticker
is skipped while the loop carries on with the remaining tickers. -/
def run_loop {α β ε : Type} (step : α → Except ε β) : List α → List β
  | [] => []
  | t :: ts =>
      match step t with
      | Except.ok r => r :: run_loop step ts
      | Except.error _ => run_loop step ts

/-- The final action of a run: either the batch is handed to the report
publisher, or the empty batch is reported visibly (the `else` print). -/
inductive FinalAction (β : Type) where
  | publish (batch : List β)
  | reportEmptyBatch
deriving DecidableEq

/-- Embedding of lines 174-178 of src/main.py: publish the accumulated batch
when it is nonempty, otherwise report the empty batch; the run itself returns
normally in both cases. -/
def run_simulation {α β ε : Type} (step : α → Except ε β) (tickers : List α) :
    FinalAction β :=
  match run_loop step tickers with
  | [] => FinalAction.reportEmptyBatch
  | r :: rs => FinalAction.publish (r :: rs)

/-- Modelled from the spec: the seedable random generator is `np.random`,
which is outside this repository; per the spec it is a deterministic function
of its seed, modelled here by a linear congruential generator.  Only the
seed-determinism of the stream is modelled, not its distribution. -/
def lcg (s : ℕ) : ℕ :=
  (1103515245 * s + 12345) % 2 ^ 31

/-- Modelled from the spec: the stream of `n` draws produced by the seeded
generator. -/
def noiseFrom (seed n : ℕ) : List ℚ :=
  (List.range n).map (fun i => ((lcg^[i + 1] seed : ℕ) : ℚ) / 2 ^ 31)

/-- `simulate` run on the stream a fixed seed determines. -/
def simulateSeeded (seed : ℕ) (last_price mu sigma : ℚ) (n : ℕ) :
    SimulationResult :=
  simulate last_price mu sigma (noiseFrom seed n)

/-! Helper lemmas about the sorted sample and the interpolation step. -/

/-- `sortQ` produces a `≤`-sorted list. -/
theorem sortQ_sorted (xs : List ℚ) : List.Pairwise (· ≤ ·) (sortQ xs) := by
  have h := @List.sorted_mergeSort ℚ (fun a b : ℚ => decide (a ≤ b))
    (fun a b c hab hbc => by
      simp only [decide_eq_true_iff] at *
      exact le_trans hab hbc)
    (fun a b => by
      simp only [Bool.or_eq_true, decide_eq_true_iff]
      exact le_total a b) xs
  exact h.imp (fun hab => by simpa using hab)

/-- `sortQ` is a permutation of its input. -/
theorem sortQ_perm (xs : List ℚ) : (sortQ xs).Perm xs :=
  List.mergeSort_perm xs _

/-- `sortQ` preserves length. -/
theorem sortQ_length (xs : List ℚ) : (sortQ xs).length = xs.length :=
  List.length_mergeSort xs

/-- In a sorted list, `getD` (with default `0`) is monotone over in-range
indices. -/
theorem getD_mono_of_sorted {s : List ℚ} (hs : List.Pairwise (· ≤ ·) s)
    {i j : ℕ} (hij : i ≤ j) (hj : j < s.length) :
    s.getD i 0 ≤ s.getD j 0 := by
  rcases Nat.lt_or_ge i j with h | h
  · have hi : i < s.length := lt_trans h hj
    rw [List.getD_eq_getElem s 0 hi, List.getD_eq_getElem s 0 hj]
    exact List.pairwise_iff_getElem.mp hs i j hi hj h
  · have hij' : i = j := le_antisymm hij h
    subst hij'
    rfl

/-- Basic bounds for the floor index of a nonnegative fractional rank. -/
theorem floor_toNat_cast {h : ℚ} (h0 : 0 ≤ h) :
    (((⌊h⌋).toNat : ℤ) : ℚ) = ((⌊h⌋ : ℤ) : ℚ) := by
  have : ((⌊h⌋).toNat : ℤ) = ⌊h⌋ := Int.toNat_of_nonneg (Int.floor_nonneg.mpr h0)
  exact_mod_cast congrArg (fun z : ℤ => (z : ℚ)) this

/-- If `h ≤ n - 1` (with `n` the length), the floor index is at most `n - 1`. -/
theorem floor_toNat_le {h : ℚ} {n : ℕ} (h0 : 0 ≤ h) (hup : h ≤ (n : ℚ) - 1) :
    (⌊h⌋).toNat ≤ n - 1 := by
  have h1 : ⌊h⌋ ≤ ⌊((n : ℚ) - 1)⌋ := Int.floor_mono hup
  have h2 : ((n : ℚ) - 1) = (((n : ℤ) - 1 : ℤ) : ℚ) := by push_cast; ring
  rw [h2, Int.floor_intCast] at h1
  have h3 : (⌊h⌋).toNat ≤ ((n : ℤ) - 1).toNat := Int.toNat_le_toNat h1
  calc (⌊h⌋).toNat ≤ ((n : ℤ) - 1).toNat := h3
    _ = n - 1 := by omega

/-- Monotonicity of the interpolation step in the fractional rank, for a
sorted sample. -/
theorem interpAt_mono {s : List ℚ} (hs : List.Pairwise (· ≤ ·) s)
    {h1 h2 : ℚ} (h0 : 0 ≤ h1) (h12 : h1 ≤ h2)
    (hup : h2 ≤ (s.length : ℚ) - 1) :
    interpAt s h1 ≤ interpAt s h2 := by
  have h0' : (0 : ℚ) ≤ h2 := le_trans h0 h12
  have hn1 : (1 : ℚ) ≤ (s.length : ℚ) := by linarith
  have hnpos : 0 < s.length := by exact_mod_cast lt_of_lt_of_le zero_lt_one hn1
  set n := s.length with hn
  set lo1 := (⌊h1⌋).toNat with hlo1
  set lo2 := (⌊h2⌋).toNat with hlo2
  have hc1 : ((lo1 : ℤ) : ℚ) = ((⌊h1⌋ : ℤ) : ℚ) := floor_toNat_cast h0
  have hc2 : ((lo2 : ℤ) : ℚ) = ((⌊h2⌋ : ℤ) : ℚ) := floor_toNat_cast h0'
  have hlo1_le : (lo1 : ℚ) ≤ h1 := by
    rw [show ((lo1 : ℚ)) = ((lo1 : ℤ) : ℚ) by push_cast; ring, hc1]
    exact Int.floor_le h1
  have hlo2_le : (lo2 : ℚ) ≤ h2 := by
    rw [show ((lo2 : ℚ)) = ((lo2 : ℤ) : ℚ) by push_cast; ring, hc2]
    exact Int.floor_le h2
  have hlt1 : h1 < (lo1 : ℚ) + 1 := by
    rw [show ((lo1 : ℚ)) = ((lo1 : ℤ) : ℚ) by push_cast; ring, hc1]
    exact Int.lt_floor_add_one h1
  have hlo2_up : lo2 ≤ n - 1 := floor_toNat_le h0' (by rw [hn]; exact hup)
  have hlo2_lt : lo2 < n := by omega
  have hmono : lo1 ≤ lo2 := Int.toNat_le_toNat (Int.floor_mono h12)
  have hlo1_lt : lo1 < n := lt_of_le_of_lt hmono hlo2_lt
  -- the two endpoints of each segment
  have ha12 : s.getD lo1 0 ≤ s.getD lo2 0 := getD_mono_of_sorted hs hmono hlo2_lt
  -- b2 ≥ a2 in both the in-range and the clamped case
  have hb2 : s.getD lo2 0 ≤ s.getD (lo2 + 1) (s.getD lo2 0) := by
    rcases Nat.lt_or_ge (lo2 + 1) n with hin | hout
    · rw [List.getD_eq_getElem s _ hin, List.getD_eq_getElem s 0 hlo2_lt]
      exact List.pairwise_iff_getElem.mp hs lo2 (lo2 + 1) hlo2_lt hin (Nat.lt_succ_self lo2)
    · rw [List.getD_eq_default s _ hout]
  have hb1 : s.getD lo1 0 ≤ s.getD (lo1 + 1) (s.getD lo1 0) := by
    rcases Nat.lt_or_ge (lo1 + 1) n with hin | hout
    · rw [List.getD_eq_getElem s _ hin, List.getD_eq_getElem s 0 hlo1_lt]
      exact List.pairwise_iff_getElem.mp hs lo1 (lo1 + 1) hlo1_lt hin (Nat.lt_succ_self lo1)
    · rw [List.getD_eq_default s _ hout]
  have hg1_nonneg : 0 ≤ h1 - ((⌊h1⌋ : ℤ) : ℚ) := by
    rw [← hc1]
    have : ((lo1 : ℤ) : ℚ) = ((lo1 : ℚ)) := by push_cast; ring
    rw [this]; linarith
  have hg2_nonneg : 0 ≤ h2 - ((⌊h2⌋ : ℤ) : ℚ) := by
    rw [← hc2]
    have : ((lo2 : ℤ) : ℚ) = ((lo2 : ℚ)) := by push_cast; ring
    rw [this]; linarith
  have hg1_lt : h1 - ((⌊h1⌋ : ℤ) : ℚ) < 1 := by
    rw [← hc1]
    have : ((lo1 : ℤ) : ℚ) = ((lo1 : ℚ)) := by push_cast; ring
    rw [this]; linarith
  rcases Nat.lt_or_ge lo1 lo2 with hlt | hge
  · -- the segments are disjoint: chain through the endpoints
    have hsucc : lo1 + 1 < n := by omega
    have hb1_eq : s.getD (lo1 + 1) (s.getD lo1 0) = s.getD (lo1 + 1) 0 := by
      rw [List.getD_eq_getElem s _ hsucc, List.getD_eq_getElem s 0 hsucc]
    have hchain : s.getD (lo1 + 1) 0 ≤ s.getD lo2 0 :=
      getD_mono_of_sorted hs (by omega) hlo2_lt
    have hv1 : interpAt s h1 ≤ s.getD (lo1 + 1) (s.getD lo1 0) := by
      show s.getD lo1 0 + (h1 - ((⌊h1⌋ : ℤ) : ℚ)) *
          (s.getD (lo1 + 1) (s.getD lo1 0) - s.getD lo1 0) ≤ _
      nlinarith [hb1, hg1_nonneg, hg1_lt]
    have hv2 : s.getD lo2 0 ≤ interpAt s h2 := by
      show _ ≤ s.getD lo2 0 + (h2 - ((⌊h2⌋ : ℤ) : ℚ)) *
          (s.getD (lo2 + 1) (s.getD lo2 0) - s.getD lo2 0)
      nlinarith [hb2, hg2_nonneg]
    calc interpAt s h1 ≤ s.getD (lo1 + 1) (s.getD lo1 0) := hv1
      _ = s.getD (lo1 + 1) 0 := hb1_eq
      _ ≤ s.getD lo2 0 := hchain
      _ ≤ interpAt s h2 := hv2
  · -- same segment: the interpolation weight is monotone
    have heq : lo1 = lo2 := le_antisymm hmono hge
    have hfeq : ⌊h1⌋ = ⌊h2⌋ := by
      have e1 : ((⌊h1⌋).toNat : ℤ) = ⌊h1⌋ := Int.toNat_of_nonneg (Int.floor_nonneg.mpr h0)
      have e2 : ((⌊h2⌋).toNat : ℤ) = ⌊h2⌋ := Int.toNat_of_nonneg (Int.floor_nonneg.mpr h0')
      omega
    show s.getD lo1 0 + (h1 - ((⌊h1⌋ : ℤ) : ℚ)) *
        (s.getD (lo1 + 1) (s.getD lo1 0) - s.getD lo1 0) ≤
      s.getD lo2 0 + (h2 - ((⌊h2⌋ : ℤ) : ℚ)) *
        (s.getD (lo2 + 1) (s.getD lo2 0) - s.getD lo2 0)
    rw [← heq, ← hfeq] at *
    nlinarith [hb1, hg1_nonneg]

/-- `npPercentile` is monotone in the percentile rank. -/
theorem npPercentile_mono (xs : List ℚ) {q1 q2 : ℚ} (h0 : 0 ≤ q1)
    (h12 : q1 ≤ q2) (h100 : q2 ≤ 100) (hne : xs ≠ []) :
    npPercentile q1 xs ≤ npPercentile q2 xs := by
  have hlen : 0 < (sortQ xs).length := by
    rw [sortQ_length]
    exact List.length_pos.mpr hne
  have hn1 : (1 : ℚ) ≤ ((sortQ xs).length : ℚ) := by exact_mod_cast hlen
  apply interpAt_mono (sortQ_sorted xs)
  · exact mul_nonneg (by positivity) (by linarith)
  · apply mul_le_mul_of_nonneg_right _ (by linarith)
    exact div_le_div_of_nonneg_right h12 (by norm_num)
  · have hq : q2 / 100 ≤ 1 := by linarith
    have hbase : (0 : ℚ) ≤ ((sortQ xs).length : ℚ) - 1 := by linarith
    calc q2 / 100 * (((sortQ xs).length : ℚ) - 1)
        ≤ 1 * (((sortQ xs).length : ℚ) - 1) :=
          mul_le_mul_of_nonneg_right hq hbase
      _ = ((sortQ xs).length : ℚ) - 1 := one_mul _

/-- Interpolating a constant list at any in-range rank yields the constant. -/
theorem interpAt_replicate {n : ℕ} {c : ℚ} {h : ℚ} (h0 : 0 ≤ h)
    (hup : h ≤ (n : ℚ) - 1) :
    interpAt (List.replicate n c) h = c := by
  have hn1 : (1 : ℚ) ≤ (n : ℚ) := by linarith
  have hnpos : 0 < n := by exact_mod_cast lt_of_lt_of_le zero_lt_one hn1
  have hlo : (⌊h⌋).toNat ≤ n - 1 := floor_toNat_le h0 hup
  have hlo_lt : (⌊h⌋).toNat < (List.replicate n c).length := by
    rw [List.length_replicate]; omega
  have ha : (List.replicate n c).getD ((⌊h⌋).toNat) 0 = c := by
    rw [List.getD_eq_getElem _ 0 hlo_lt, List.getElem_replicate]
  have hb : (List.replicate n c).getD ((⌊h⌋).toNat + 1)
      ((List.replicate n c).getD ((⌊h⌋).toNat) 0) = c := by
    rcases Nat.lt_or_ge ((⌊h⌋).toNat + 1) (List.replicate n c).length with hin | hout
    · rw [List.getD_eq_getElem _ _ hin, List.getElem_replicate]
    · rw [List.getD_eq_default _ _ hout, ha]
  show (List.replicate n c).getD ((⌊h⌋).toNat) 0 + (h - ((⌊h⌋ : ℤ) : ℚ)) *
      ((List.replicate n c).getD ((⌊h⌋).toNat + 1)
        ((List.replicate n c).getD ((⌊h⌋).toNat) 0) -
       (List.replicate n c).getD ((⌊h⌋).toNat) 0) = c
  rw [ha] at hb
  rw [ha, hb]
  ring

/-- Sorting a constant list yields the same constant list. -/
theorem sortQ_replicate (n : ℕ) (c : ℚ) :
    sortQ (List.replicate n c) = List.replicate n c := by
  rw [List.eq_replicate_iff]
  constructor
  · rw [sortQ_length, List.length_replicate]
  · intro b hb
    exact List.eq_of_mem_replicate ((sortQ_perm _).mem_iff.mp hb)

/-- Every `np.percentile` of a constant nonempty sample is the constant. -/
theorem npPercentile_replicate {n : ℕ} (hn : 0 < n) {q : ℚ} (h0 : 0 ≤ q)
    (h100 : q ≤ 100) (c : ℚ) :
    npPercentile q (List.replicate n c) = c := by
  show interpAt (sortQ (List.replicate n c))
      (q / 100 * (((sortQ (List.replicate n c)).length : ℚ) - 1)) = c
  rw [sortQ_replicate, List.length_replicate]
  have hn1 : (1 : ℚ) ≤ (n : ℚ) := by exact_mod_cast hn
  apply interpAt_replicate
  · exact mul_nonneg (by positivity) (by linarith)
  · have hq : q / 100 ≤ 1 := by linarith
    calc q / 100 * ((n : ℚ) - 1) ≤ 1 * ((n : ℚ) - 1) :=
        mul_le_mul_of_nonneg_right hq (by linarith)
      _ = (n : ℚ) - 1 := one_mul _

/-- The mean of a constant nonempty sample is the constant. -/
theorem mean_replicate {n : ℕ} (hn : 0 < n) (c : ℚ) :
    mean (List.replicate n c) = c := by
  show (List.replicate n c).sum / (((List.replicate n c).length : ℕ) : ℚ) = c
  rw [List.sum_replicate, List.length_replicate, nsmul_eq_mul]
  have : ((n : ℚ)) ≠ 0 := by
    have : (0 : ℚ) < (n : ℚ) := by exact_mod_cast hn
    linarith
  field_simp

/-- The source's `np.percentile` agrees with the spec's rank-interpolated
percentile of the sorted sample. -/
theorem npPercentile_eq_rankInterp (q : ℚ) (xs : List ℚ) (h0 : 0 ≤ q)
    (h100 : q ≤ 100) (hne : xs ≠ []) :
    npPercentile q xs = rankInterp q (sortQ xs) := by
  have hlen : 0 < (sortQ xs).length := by
    rw [sortQ_length]; exact List.length_pos.mpr hne
  set s := sortQ xs with hs
  set n := s.length with hn
  set h : ℚ := q / 100 * ((n : ℚ) - 1) with hdef
  have hn1 : (1 : ℚ) ≤ (n : ℚ) := by exact_mod_cast hlen
  have hq : q / 100 ≤ 1 := by linarith
  have hh0 : 0 ≤ h := by
    rw [hdef]; exact mul_nonneg (by positivity) (by linarith)
  have hhup : h ≤ (n : ℚ) - 1 := by
    rw [hdef]
    calc q / 100 * ((n : ℚ) - 1) ≤ 1 * ((n : ℚ) - 1) :=
        mul_le_mul_of_nonneg_right hq (by linarith)
      _ = (n : ℚ) - 1 := one_mul _
  set lo := (⌊h⌋).toNat with hlo
  have hlo_le : lo ≤ n - 1 := floor_toNat_le hh0 hhup
  have hlo_lt : lo < n := by omega
  show interpAt s h = rankInterp q s
  show s.getD lo 0 + (h - ((⌊h⌋ : ℤ) : ℚ)) * (s.getD (lo + 1) (s.getD lo 0) - s.getD lo 0) =
    (1 - (h - ((⌊h⌋ : ℤ) : ℚ))) * s.getD lo 0 +
      (h - ((⌊h⌋ : ℤ) : ℚ)) * s.getD (min (lo + 1) (n - 1)) 0
  rcases Nat.lt_or_ge (lo + 1) n with hin | hout
  · have hmin : min (lo + 1) (n - 1) = lo + 1 := by omega
    rw [hmin, List.getD_eq_getElem s _ hin, List.getD_eq_getElem s 0 hin]
    ring
  · have hloeq : lo = n - 1 := by omega
    have hmin : min (lo + 1) (n - 1) = lo := by omega
    rw [hmin, List.getD_eq_default s _ (by omega : s.length ≤ lo + 1)]
    ring

/-- `pct_change` followed by `dropna` is exactly the list of simple returns of
consecutive pairs. -/
theorem returnsOf_eq_zipWith (data : List ℚ) :
    returnsOf data = List.zipWith (fun prev cur => cur / prev - 1) data data.tail := by
  cases data with
  | nil => rfl
  | cons p ps =>
      show dropna (none :: List.zipWith (fun prev cur => some (cur / prev - 1))
        (p :: ps) (p :: ps).tail) = _
      show List.filterMap id (none :: List.zipWith
        (fun prev cur => some (cur / prev - 1)) (p :: ps) (p :: ps).tail) = _
      rw [List.filterMap_cons_none]
      have hmap : List.zipWith (fun prev cur => some (cur / prev - 1))
          (p :: ps) (p :: ps).tail =
          List.map some (List.zipWith (fun prev cur => cur / prev - 1)
            (p :: ps) (p :: ps).tail) := by
        rw [List.map_zipWith]
      rw [hmap]
      have : List.filterMap id (List.map some (List.zipWith
          (fun prev cur => cur / prev - 1) (p :: ps) (p :: ps).tail)) =
          List.filterMap some (List.zipWith
            (fun prev cur => cur / prev - 1) (p :: ps) (p :: ps).tail) := by
        rw [List.filterMap_map]
        rfl
      rw [this, List.filterMap_some]
      rfl

/-- The return series of an `N`-observation series has `N - 1` entries. -/
theorem returnsOf_length (data : List ℚ) :
    (returnsOf data).length = data.length - 1 := by
  rw [returnsOf_eq_zipWith, List.length_zipWith, List.length_tail]
  omega

/-- The population variance is nonnegative. -/
theorem var_pop_nonneg (xs : List ℚ) : 0 ≤ var_pop xs := by
  apply div_nonneg
  · apply List.sum_nonneg
    intro x hx
    rcases List.mem_map.mp hx with ⟨y, _, rfl⟩
    positivity
  · positivity

/-- The returns of a constant price series are all zero. -/
theorem returnsOf_replicate {n : ℕ} {p : ℚ} (hp : p ≠ 0) :
    returnsOf (List.replicate n p) = List.replicate (n - 1) 0 := by
  rw [returnsOf_eq_zipWith, List.tail_replicate, List.zipWith_replicate]
  have hpp : p / p - 1 = 0 := by field_simp
  rw [hpp, Nat.min_eq_right (Nat.sub_le n 1)]

/-- The mean of an all-zero sample is zero (also for the empty sample, where
the embedding's junk value for `0 / 0` agrees). -/
theorem mean_replicate_zero (m : ℕ) : mean (List.replicate m (0 : ℚ)) = 0 := by
  show (List.replicate m (0 : ℚ)).sum / (((List.replicate m (0 : ℚ)).length : ℕ) : ℚ) = 0
  rw [List.sum_replicate]
  simp

/-- The population variance of an all-zero sample is zero. -/
theorem var_pop_replicate_zero (m : ℕ) : var_pop (List.replicate m (0 : ℚ)) = 0 := by
  show ((List.replicate m (0 : ℚ)).map
      (fun x => (x - mean (List.replicate m (0 : ℚ))) ^ 2)).sum /
    (((List.replicate m (0 : ℚ)).length : ℕ) : ℚ) = 0
  rw [mean_replicate_zero, List.map_replicate, List.sum_replicate]
  simp

/-- `dropna` of an all-`some` series keeps every entry. -/
theorem dropna_replicate_some (n : ℕ) (p : ℚ) :
    dropna (List.replicate n (some p)) = List.replicate n p := by
  show List.filterMap id (List.replicate n (some p)) = _
  rw [List.filterMap_replicate]
  rfl

/-- The simulated prices collapse to the constant `last_price` when the
normal-distribution parameters are `mu = 0`, `sigma = 0`. -/
theorem simulated_prices_const (p : ℚ) (noise : List ℚ) :
    simulated_prices p 0 0 noise = List.replicate noise.length p := by
  show ((noise.map (fun z => drawNormal 0 0 z)).map (fun r => p * (1 + r))) = _
  rw [List.map_map]
  have hfun : ((fun r => p * (1 + r)) ∘ (fun z => drawNormal 0 0 z)) =
      (fun _ : ℚ => p) := by
    funext z
    show p * (1 + (0 + 0 * z)) = p
    ring
  rw [hfun, List.map_const']

/-- The simulated-price sample has one entry per draw. -/
theorem simulated_prices_length (lp mu sigma : ℚ) (noise : List ℚ) :
    (simulated_prices lp mu sigma noise).length = noise.length := by
  show ((noise.map (fun z => drawNormal mu sigma z)).map
    (fun r => lp * (1 + r))).length = noise.length
  rw [List.length_map, List.length_map]

/-- The simulated-price sample is nonempty whenever draws were made. -/
theorem simulated_prices_ne_nil (lp mu sigma : ℚ) {noise : List ℚ}
    (hne : noise ≠ []) : simulated_prices lp mu sigma noise ≠ [] := by
  intro h
  apply hne
  have hl := congrArg List.length h
  rw [simulated_prices_length] at hl
  exact List.eq_nil_of_length_eq_zero hl

/-! The claims. -/

/-- C1: for every `lastPrice` and every drawn return `r`, the Monte Carlo
forecaster computes the simulated terminal price as `lastPrice * (1 + r)`, and
reduces the sample of simulated prices to `expectedPrice` = the arithmetic
mean of the sample, and to the 1st, 5th, 50th, 95th and 99th percentiles
computed by linear interpolation between the two nearest order statistics. -/
theorem C1_simulate_mean_and_interpolated_percentiles
    (lp mu sigma : ℚ) (noise : List ℚ) (hne : noise ≠ []) :
    simulated_prices lp mu sigma noise =
      (noise.map (fun z => drawNormal mu sigma z)).map (fun r => lp * (1 + r)) ∧
    (simulate lp mu sigma noise).expected_price =
      (simulated_prices lp mu sigma noise).sum /
        ((simulated_prices lp mu sigma noise).length : ℚ) ∧
    (simulate lp mu sigma noise).p1 =
      rankInterp 1 (sortQ (simulated_prices lp mu sigma noise)) ∧
    (simulate lp mu sigma noise).p5 =
      rankInterp 5 (sortQ (simulated_prices lp mu sigma noise)) ∧
    (simulate lp mu sigma noise).p50 =
      rankInterp 50 (sortQ (simulated_prices lp mu sigma noise)) ∧
    (simulate lp mu sigma noise).p95 =
      rankInterp 95 (sortQ (simulated_prices lp mu sigma noise)) ∧
    (simulate lp mu sigma noise).p99 =
      rankInterp 99 (sortQ (simulated_prices lp mu sigma noise)) := by
  have hpne := simulated_prices_ne_nil lp mu sigma hne
  refine ⟨rfl, rfl, ?_, ?_, ?_, ?_, ?_⟩ <;>
    exact npPercentile_eq_rankInterp _ _ (by norm_num) (by norm_num) hpne

/-- Witness for C1 at `lastPrice = 100`, `mu = 0`, `sigma = 1`,
a one-draw sample. -/
theorem C1_witness :
    (([(0 : ℚ)] : List ℚ) ≠ []) ∧
    (simulated_prices 100 0 1 [0] =
      (([(0 : ℚ)] : List ℚ).map (fun z => drawNormal 0 1 z)).map
        (fun r => (100 : ℚ) * (1 + r)) ∧
    (simulate 100 0 1 [0]).expected_price =
      (simulated_prices 100 0 1 [0]).sum /
        ((simulated_prices 100 0 1 [0]).length : ℚ) ∧
    (simulate 100 0 1 [0]).p1 = rankInterp 1 (sortQ (simulated_prices 100 0 1 [0])) ∧
    (simulate 100 0 1 [0]).p5 = rankInterp 5 (sortQ (simulated_prices 100 0 1 [0])) ∧
    (simulate 100 0 1 [0]).p50 = rankInterp 50 (sortQ (simulated_prices 100 0 1 [0])) ∧
    (simulate 100 0 1 [0]).p95 = rankInterp 95 (sortQ (simulated_prices 100 0 1 [0])) ∧
    (simulate 100 0 1 [0]).p99 = rankInterp 99 (sortQ (simulated_prices 100 0 1 [0]))) :=
  ⟨by decide, C1_simulate_mean_and_interpolated_percentiles 100 0 1 [0] (by decide)⟩

/-- C2: for every price series of length `N ≥ 2` the extractor computes the
simple return of each consecutive pair (the return series has length `N - 1`,
nothing further dropped) and returns its arithmetic mean and its population
standard deviation with divisor `N - 1` = the return-series length (not the
`ddof = 1` sample divisor). -/
theorem C2_extract_simple_returns_and_population_std (data : List ℚ)
    (h2 : 2 ≤ data.length) (hpos : ∀ p ∈ data, 0 < p) :
    (returnsOf data).length = data.length - 1 ∧
    returnsOf data = List.zipWith (fun prev cur => cur / prev - 1) data data.tail ∧
    mean (returnsOf data) = (returnsOf data).sum / ((data.length - 1 : ℕ) : ℚ) ∧
    0 ≤ std_pop (returnsOf data) ∧
    (std_pop (returnsOf data)) ^ 2 =
      ((((returnsOf data).map (fun r => (r - mean (returnsOf data)) ^ 2)).sum /
        ((data.length - 1 : ℕ) : ℚ) : ℚ) : ℝ) := by
  have hlen := returnsOf_length data
  refine ⟨hlen, returnsOf_eq_zipWith data, ?_, Real.sqrt_nonneg _, ?_⟩
  · show (returnsOf data).sum / (((returnsOf data).length : ℕ) : ℚ) = _
    rw [hlen]
  · show (Real.sqrt ((var_pop (returnsOf data) : ℚ) : ℝ)) ^ 2 = _
    rw [Real.sq_sqrt (by exact_mod_cast var_pop_nonneg (returnsOf data))]
    have : var_pop (returnsOf data) =
        ((returnsOf data).map (fun r => (r - mean (returnsOf data)) ^ 2)).sum /
          ((data.length - 1 : ℕ) : ℚ) := by
      show ((returnsOf data).map (fun r => (r - mean (returnsOf data)) ^ 2)).sum /
          (((returnsOf data).length : ℕ) : ℚ) = _
      rw [hlen]
    exact_mod_cast congrArg (fun q : ℚ => ((q : ℚ) : ℝ)) this

/-- Witness for C2 on the two-observation series `[1, 2]`. -/
theorem C2_witness :
    (2 ≤ ([(1 : ℚ), 2] : List ℚ).length ∧ ∀ p ∈ ([(1 : ℚ), 2] : List ℚ), 0 < p) ∧
    ((returnsOf [(1 : ℚ), 2]).length = ([(1 : ℚ), 2] : List ℚ).length - 1 ∧
    returnsOf [(1 : ℚ), 2] = List.zipWith (fun prev cur => cur / prev - 1)
      ([(1 : ℚ), 2] : List ℚ) ([(1 : ℚ), 2] : List ℚ).tail ∧
    mean (returnsOf [(1 : ℚ), 2]) =
      (returnsOf [(1 : ℚ), 2]).sum / ((([(1 : ℚ), 2] : List ℚ).length - 1 : ℕ) : ℚ) ∧
    0 ≤ std_pop (returnsOf [(1 : ℚ), 2]) ∧
    (std_pop (returnsOf [(1 : ℚ), 2])) ^ 2 =
      ((((returnsOf [(1 : ℚ), 2]).map
          (fun r => (r - mean (returnsOf [(1 : ℚ), 2])) ^ 2)).sum /
        ((([(1 : ℚ), 2] : List ℚ).length - 1 : ℕ) : ℚ) : ℚ) : ℝ)) :=
  ⟨⟨by decide, by decide⟩,
    C2_extract_simple_returns_and_population_std [(1 : ℚ), 2] (by decide) (by decide)⟩

/-- C3 counterexample: the extractor performs no input validation.  A
single-observation series (fewer than 2 observations) is processed without an
`InsufficientDataError`, and a series of non-positive prices is processed
without an `InvalidPriceError`. -/
theorem C3_counterexample :
    (dropna [some (1 : ℚ)]).length < 2 ∧ (extract [some (1 : ℚ)]).isSome = true ∧
    ((-1 : ℚ) ≤ 0) ∧ (extract [some (-1 : ℚ), some (-2 : ℚ)]).isSome = true := by
  refine ⟨by decide, rfl, by decide, rfl⟩

/-- C3 amended: the extraction block raises no dedicated errors; it fails
(with the `IndexError` of `data.iloc[-1]`) exactly when the series is empty
after `NaN` removal, and succeeds on every other series, including series of
fewer than 2 observations and series with non-positive prices. -/
theorem C3_extract_fails_iff_empty (raw : List (Option ℚ)) :
    extract raw = none ↔ dropna raw = [] := by
  show extractClean (dropna raw) = none ↔ _
  cases hd : dropna raw with
  | nil => simp [extractClean]
  | cons a as =>
      constructor
      · intro hnone
        exfalso
        unfold extractClean at hnone
        cases hl : (a :: as).getLast? with
        | none =>
            exact (List.cons_ne_nil a as) (List.getLast?_eq_none_iff.mp hl)
        | some lp =>
            rw [hl] at hnone
            exact Option.noConfusion hnone
      · intro h
        exact absurd h (List.cons_ne_nil a as)

/-- C4: the five percentile values of a simulation result are non-decreasing
in percentile rank, for every sample of size at least 1, by construction of
the percentile computation. -/
theorem C4_percentiles_monotone (lp mu sigma : ℚ) (noise : List ℚ)
    (hsize : 1 ≤ noise.length) :
    (simulate lp mu sigma noise).p1 ≤ (simulate lp mu sigma noise).p5 ∧
    (simulate lp mu sigma noise).p5 ≤ (simulate lp mu sigma noise).p50 ∧
    (simulate lp mu sigma noise).p50 ≤ (simulate lp mu sigma noise).p95 ∧
    (simulate lp mu sigma noise).p95 ≤ (simulate lp mu sigma noise).p99 := by
  have hne : noise ≠ [] := by
    intro h
    rw [h] at hsize
    exact absurd hsize (by decide)
  have hpne := simulated_prices_ne_nil lp mu sigma hne
  refine ⟨?_, ?_, ?_, ?_⟩ <;>
    exact npPercentile_mono _ (by norm_num) (by norm_num) (by norm_num) hpne

/-- Witness for C4 on a two-draw sample. -/
theorem C4_witness :
    1 ≤ ([(1 : ℚ), 2] : List ℚ).length ∧
    ((simulate 100 0 1 [1, 2]).p1 ≤ (simulate 100 0 1 [1, 2]).p5 ∧
    (simulate 100 0 1 [1, 2]).p5 ≤ (simulate 100 0 1 [1, 2]).p50 ∧
    (simulate 100 0 1 [1, 2]).p50 ≤ (simulate 100 0 1 [1, 2]).p95 ∧
    (simulate 100 0 1 [1, 2]).p95 ≤ (simulate 100 0 1 [1, 2]).p99) :=
  ⟨by decide, C4_percentiles_monotone 100 0 1 [1, 2] (by decide)⟩

/-- C5: with `stdDev = 0` every draw equals the mean deterministically; and
for a constant price series the extracted statistics are `mean = 0`,
`stdDev = 0`, so the simulation returns all five percentiles and the expected
price equal to `lastPrice`. -/
theorem C5_zero_stddev_point_mass (mu z p : ℚ) (n : ℕ) (noise : List ℚ)
    (hp : 0 < p) (hn : 2 ≤ n) (hnz : noise ≠ []) :
    drawNormal mu 0 z = mu ∧
    extract (List.replicate n (some p)) =
      some { returnsList := List.replicate (n - 1) 0
             mean_r := 0
             var_r := 0
             last_price := p } ∧
    std_pop (List.replicate (n - 1) 0) = 0 ∧
    simulate p 0 0 noise =
      { p1 := p, p5 := p, p50 := p, p95 := p, p99 := p, expected_price := p } := by
  have hp' : p ≠ 0 := ne_of_gt hp
  have hm : 0 < noise.length := List.length_pos.mpr hnz
  refine ⟨by show mu + 0 * z = mu; ring, ?_, ?_, ?_⟩
  · show extractClean (dropna (List.replicate n (some p))) = _
    rw [dropna_replicate_some]
    unfold extractClean
    rw [List.getLast?_replicate, if_neg (by omega : ¬ n = 0)]
    rw [returnsOf_replicate hp', mean_replicate_zero, var_pop_replicate_zero]
  · show Real.sqrt ((var_pop (List.replicate (n - 1) 0) : ℚ) : ℝ) = 0
    rw [var_pop_replicate_zero]
    norm_num
  · show ({ p1 := npPercentile 1 (simulated_prices p 0 0 noise)
            p5 := npPercentile 5 (simulated_prices p 0 0 noise)
            p50 := npPercentile 50 (simulated_prices p 0 0 noise)
            p95 := npPercentile 95 (simulated_prices p 0 0 noise)
            p99 := npPercentile 99 (simulated_prices p 0 0 noise)
            expected_price := mean (simulated_prices p 0 0 noise) } : SimulationResult) = _
    rw [simulated_prices_const]
    simp only [SimulationResult.mk.injEq]
    exact ⟨npPercentile_replicate hm (by norm_num) (by norm_num) p,
      npPercentile_replicate hm (by norm_num) (by norm_num) p,
      npPercentile_replicate hm (by norm_num) (by norm_num) p,
      npPercentile_replicate hm (by norm_num) (by norm_num) p,
      npPercentile_replicate hm (by norm_num) (by norm_num) p,
      mean_replicate hm p⟩

/-- Witness for C5: a constant two-observation series of price 1, one draw. -/
theorem C5_witness :
    ((0 : ℚ) < 1 ∧ 2 ≤ 2 ∧ ([(0 : ℚ)] : List ℚ) ≠ []) ∧
    (drawNormal 0 0 0 = 0 ∧
    extract (List.replicate 2 (some (1 : ℚ))) =
      some { returnsList := List.replicate (2 - 1) 0
             mean_r := 0
             var_r := 0
             last_price := 1 } ∧
    std_pop (List.replicate (2 - 1) 0) = 0 ∧
    simulate 1 0 0 [0] =
      { p1 := 1, p5 := 1, p50 := 1, p95 := 1, p99 := 1, expected_price := 1 }) :=
  ⟨⟨by decide, by decide, by decide⟩,
    C5_zero_stddev_point_mass 0 0 1 2 [0] (by decide) (by decide) (by decide)⟩

/-- C6: an error raised while processing one instrument removes exactly that
instrument from the batch; the loop continues with the remaining instruments
and never aborts globally. -/
theorem C6_instrument_failure_is_isolated {α β ε : Type} (step : α → Except ε β)
    (pre post : List α) (t : α) (e : ε) (hfail : step t = Except.error e) :
    run_loop step (pre ++ t :: post) = run_loop step pre ++ run_loop step post := by
  induction pre with
  | nil =>
      rw [List.nil_append]
      show (match step t with
        | Except.ok r => r :: run_loop step post
        | Except.error _ => run_loop step post) = run_loop step [] ++ run_loop step post
      rw [hfail]
      rfl
  | cons a as ih =>
      show (match step a with
        | Except.ok r => r :: run_loop step (as ++ t :: post)
        | Except.error _ => run_loop step (as ++ t :: post)) =
        (match step a with
          | Except.ok r => r :: run_loop step as
          | Except.error _ => run_loop step as) ++ run_loop step post
      cases ha : step a with
      | ok r =>
          rw [ih]
          rfl
      | error e' =>
          exact ih

/-- A concrete per-ticker step for the witnesses: ticker `1` fails, every
other ticker succeeds. -/
def stepW (n : ℕ) : Except Unit ℕ :=
  if n = 1 then Except.error () else Except.ok n

/-- Witness for C6: with `stepW`, ticker `1` fails in the middle of the batch
`[0, 1, 2]` and exactly that ticker is excluded. -/
theorem C6_witness :
    stepW 1 = Except.error () ∧
    run_loop stepW ([0] ++ 1 :: [2]) = run_loop stepW [0] ++ run_loop stepW [2] :=
  ⟨rfl, C6_instrument_failure_is_isolated stepW [0] [2] 1 () rfl⟩

/-- C7: when the batch is empty after all instruments were attempted, the
publisher is never invoked, the condition is reported visibly, and the run
still returns a value (no global error). -/
theorem C7_empty_batch_not_published {α β ε : Type} (step : α → Except ε β)
    (tickers : List α) (hempty : run_loop step tickers = []) :
    run_simulation step tickers = FinalAction.reportEmptyBatch ∧
    ∀ b : List β, run_simulation step tickers ≠ FinalAction.publish b := by
  have h : run_simulation step tickers = FinalAction.reportEmptyBatch := by
    unfold run_simulation
    rw [hempty]
  refine ⟨h, fun b hb => ?_⟩
  rw [h] at hb
  exact FinalAction.noConfusion hb

/-- A per-ticker step that always fails, for the empty-batch witness. -/
def stepFail (_ : ℕ) : Except Unit ℕ :=
  Except.error ()

/-- Witness for C7: both instruments of the batch `[0, 1]` fail, so nothing
is published and the empty batch is reported. -/
theorem C7_witness :
    run_loop stepFail [0, 1] = [] ∧
    (run_simulation stepFail [0, 1] = FinalAction.reportEmptyBatch ∧
      ∀ b : List ℕ, run_simulation stepFail [0, 1] ≠ FinalAction.publish b) :=
  ⟨rfl, C7_empty_batch_not_published stepFail [0, 1] rfl⟩

/-- C8: the assembler derives the annualized volatility percentage exactly as
`stats.stdDev * sqrt 252 * 100` (equivalently, its square is
`stdDev ^ 2 * 252 * 100 ^ 2`). -/
theorem C8_annualized_volatility_formula (s : ℝ) :
    vol_annual s = s * Real.sqrt 252 * 100 ∧
    (vol_annual s) ^ 2 = s ^ 2 * 252 * 100 ^ 2 := by
  refine ⟨rfl, ?_⟩
  show (s * Real.sqrt 252 * 100) ^ 2 = _
  have h252 : (Real.sqrt 252) ^ 2 = 252 := Real.sq_sqrt (by norm_num)
  calc (s * Real.sqrt 252 * 100) ^ 2 = s ^ 2 * (Real.sqrt 252) ^ 2 * 100 ^ 2 := by ring
    _ = s ^ 2 * 252 * 100 ^ 2 := by rw [h252]

/-- C9: the generator is a deterministic function of its seed, so two
invocations of the seeded simulation with identical inputs produce identical
percentile and expected-price outputs; distinct seeds can produce distinct
draw streams. -/
theorem C9_seeded_simulation_deterministic (s1 s2 : ℕ)
    (lp1 lp2 mu1 mu2 sg1 sg2 : ℚ) (n1 n2 : ℕ) (hs : s1 = s2) (hlp : lp1 = lp2)
    (hmu : mu1 = mu2) (hsg : sg1 = sg2) (hn : n1 = n2) :
    simulateSeeded s1 lp1 mu1 sg1 n1 = simulateSeeded s2 lp2 mu2 sg2 n2 ∧
    noiseFrom 0 1 ≠ noiseFrom 1 1 := by
  subst hs hlp hmu hsg hn
  refine ⟨rfl, fun hEq => ?_⟩
  have h1 : ((lcg^[0 + 1] 0 : ℕ) : ℚ) / 2 ^ 31 = ((lcg^[0 + 1] 1 : ℕ) : ℚ) / 2 ^ 31 := by
    have h2 := congrArg (fun l : List ℚ => l.headD 0) hEq
    simpa [noiseFrom, List.range_succ] using h2
  have h3 : ((lcg^[0 + 1] 0 : ℕ) : ℚ) = ((lcg^[0 + 1] 1 : ℕ) : ℚ) := by
    field_simp at h1
    exact_mod_cast h1
  have h4 : (lcg^[0 + 1] 0 : ℕ) = (lcg^[0 + 1] 1 : ℕ) := Nat.cast_injective h3
  have h5 : lcg 0 = lcg 1 := by
    simpa [Function.iterate_one] using h4
  simp only [lcg] at h5
  omega

/-- Witness for C9 at seed 42 with a five-draw simulation. -/
theorem C9_witness :
    ((42 : ℕ) = 42 ∧ (100 : ℚ) = 100 ∧ (0 : ℚ) = 0 ∧ (1 : ℚ) = 1 ∧ (5 : ℕ) = 5) ∧
    (simulateSeeded 42 100 0 1 5 = simulateSeeded 42 100 0 1 5 ∧
      noiseFrom 0 1 ≠ noiseFrom 1 1) :=
  ⟨⟨rfl, rfl, rfl, rfl, rfl⟩,
    C9_seeded_simulation_deterministic 42 42 100 100 0 0 1 1 5 5 rfl rfl rfl rfl rfl⟩

/-- C10: `NaN` entries of the fetched close series are silently removed
before returns are computed (and the leading `NaN` return is likewise
dropped): the pipeline's result depends only on the `NaN`-free subsequence,
a gap yields a return between non-adjacent observations, and no error is
signalled. -/
theorem C10_nan_prices_silently_dropped (raw : List (Option ℚ)) (a b : ℚ) :
    extract raw = extract ((dropna raw).map some) ∧
    extract [some a, none, some b] = extract [some a, some b] ∧
    returnsOf (dropna [some a, none, some b]) = [b / a - 1] ∧
    (extract [some a, none, some b]).isSome = true := by
  refine ⟨?_, ?_, ?_, ?_⟩
  · show extractClean (dropna raw) = extractClean (dropna ((dropna raw).map some))
    congr 1
    show dropna raw = List.filterMap id (List.map some (dropna raw))
    rw [List.filterMap_map]
    show dropna raw = List.filterMap some (dropna raw)
    rw [List.filterMap_some]
  · rfl
  · show returnsOf [a, b] = [b / a - 1]
    rw [returnsOf_eq_zipWith]
    rfl
  · rfl

end BotSpec
